import Mathlib

/-!
Verification of the Garmea document-to-graph extraction pipeline.

The pipeline (spec sections 2-4) turns raw OCR text of French historical
records into a genealogical graph: Normalizer, Segmenter, Entity Extractor,
Relationship Inferencer, Person Registry (deduplicator), Quality Validator,
and a Processing Cache shared by the stages.

The concrete code present in the repository (the Python snippets of
OPTIMISATIONS_MAIN_PY.md: input validation, the processing cache get/put
pattern, the batch loop, Config.validate_config, _analyze_segment_quality,
_clear_caches) is embedded directly from that source.  The stage algorithms
whose implementation is not in the repository (Normalizer rewrite rules,
Segmenter, Entity Extractor, Relationship Inferencer, Person Registry) are
modelled from the spec, as indicated in each doc comment.

Raw text is modelled as a list of characters, rational numbers stand for
the confidence / quality scores.
-/

namespace Garmea

/-- Raw text is modelled as a list of characters. -/
abbrev Text := List Char

/-- Tokens of a text: the maximal space-free runs (split on the space
character, dropping empty runs). -/
def tokens (s : Text) : List Text :=
  (s.splitOn ' ').filter (fun t => decide (t ≠ []))

/-- Modelled from the spec: the Normalizer implementation is not in the
repository.  Spec 4.1 describes "a deterministic, ordered set of rewrite
rules (OCR artifact correction, diacritic/spelling canonicalization for
archaic French, abbreviation expansion)".  We model a representative,
token-level rewrite table for archaic French orthography; each right-hand
side is a canonical form (never itself a left-hand side), nonempty,
space-free and no longer than its source. -/
def canonTable : List (Text × Text) :=
  [("faicte".toList, "faite".toList),
   ("faict".toList, "fait".toList),
   ("filz".toList, "fils".toList),
   ("aoust".toList, "aout".toList),
   ("dudict".toList, "dudit".toList),
   ("ladicte".toList, "ladite".toList),
   ("icelluy".toList, "icelui".toList),
   ("estoit".toList, "etait".toList),
   ("sept7bre".toList, "sep7bre".toList)]

/-- Canonicalize one token: apply its rewrite rule when the table has one,
otherwise keep the token unchanged. -/
def canonToken (t : Text) : Text :=
  match canonTable.find? (fun p => decide (p.1 = t)) with
  | some p => p.2
  | none => t

/-- Number of tokens changed by normalization (the "edits applied" count of
spec 4.1). -/
def editCount (s : Text) : Nat :=
  (tokens s).countP (fun t => decide (canonToken t ≠ t))

/-- The improvement measure of spec 4.1: edits applied divided by total
tokens.  (The spec calls this quotient the normalization improvement
measure.) -/
def improvement (s : Text) : ℚ :=
  (editCount s : ℚ) / ((tokens s).length : ℚ)

/-- Result of the Normalizer: normalized text plus the improvement
quotient. -/
structure NormResult where
  text : Text
  improvement : ℚ
deriving DecidableEq

/-- Error taxonomy of spec 7 for document-level validation.  The code
(OPTIMISATIONS_MAIN_PY.md, input validation) raises on empty or blank
input; the maximum-length bound is Config.MAX_TEXT_LENGTH. -/
inductive ValidationError where
  | emptyText
  | textTooLong
deriving DecidableEq

/-- Config.MAX_TEXT_LENGTH from the code (OPTIMISATIONS_MAIN_PY.md). -/
def MAX_TEXT_LENGTH : Nat := 1000000

/-- The pure normalization pass: canonicalize every token and rejoin with
single spaces. -/
def normalizeCore (s : Text) : Text :=
  [' '].intercalate ((tokens s).map canonToken)

/-- The Normalizer contract of spec 4.1, with the input validation embedded
from the code (OPTIMISATIONS_MAIN_PY.md, "Validation des entrées"):
empty-or-blank text raises, and text over the configured maximum length
raises (the length bound is modelled from the spec: the length check does
not appear in the repository snippet, only the constant does). -/
def normalize (raw : Text) : Except ValidationError NormResult :=
  if tokens raw = [] then .error .emptyText
  else if MAX_TEXT_LENGTH < raw.length then .error .textTooLong
  else .ok ⟨normalizeCore raw, improvement raw⟩

deriving instance DecidableEq for Except

/-- An act-level segment (spec 3): text plus a structural quality score. -/
structure Segment where
  text : Text
  quality : ℚ
deriving DecidableEq

/-- A token opening with an upper-case letter (person-name pattern). -/
def isCapitalizedToken (t : Text) : Bool :=
  match t with
  | c :: _ => c.isUpper
  | [] => false

/-- Place-name markers used by the segment quality heuristic. -/
def placeMarkers : List Text := ["paroisse".toList, "lieu".toList]

def hasDate (t : Text) : Bool := t.any Char.isDigit

def hasPlace (t : Text) : Bool :=
  (tokens t).any (fun u => decide (u ∈ placeMarkers))

def hasName (t : Text) : Bool := (tokens t).any isCapitalizedToken

/-- Modelled from the spec (4.2, Segmenter, not in the repository): quality
is computed from presence/absence of a parseable date, a place name and a
person-name pattern. -/
def segQuality (t : Text) : ℚ :=
  (if hasDate t then (4 : ℚ)/10 else 0) +
    (if hasPlace t then (3 : ℚ)/10 else 0) +
    (if hasName t then (3 : ℚ)/10 else 0)

/-- Fixed quality penalty for text with no detectable boundary (spec 4.2). -/
def noBoundaryPenalty : ℚ := 1/5

/-- Modelled from the spec (4.2, Segmenter, not in the repository): split
normalized text at paragraph breaks; no detectable boundary yields a single
penalized segment; no text at all yields the empty list (a data condition,
not an error). -/
def segmentCore (t : Text) : List Segment :=
  match (t.splitOn '\n').filter (fun p => decide (tokens p ≠ [])) with
  | [] => []
  | [p] => [⟨p, max 0 (segQuality p - noBoundaryPenalty)⟩]
  | ps => ps.map (fun p => ⟨p, segQuality p⟩)

/-- A candidate person reference extracted from one segment (spec 3). -/
structure Mention where
  nameTokens : List Text
  conf : ℚ
deriving DecidableEq

/-- Name particles of Ancien-Régime naming conventions (spec 4.3). -/
def particles : List Text := ["de".toList, "du".toList, "des".toList]

/-- Titles / nobility markers (spec 4.3). -/
def titles : List Text := ["Sieur".toList, "Comte".toList, "Duchesse".toList]

def nameish (t : Text) : Bool :=
  isCapitalizedToken t || decide (t ∈ particles)

/-- Maximal runs of name-like tokens (capitalized words possibly joined by
particles). -/
def nameRuns : List Text → List (List Text)
  | [] => []
  | t :: ts =>
      if nameish t then
        (t :: ts.takeWhile nameish) :: nameRuns (ts.dropWhile nameish)
      else nameRuns ts
termination_by l => l.length
decreasing_by
  · have h : (ts.dropWhile nameish).length ≤ ts.length :=
      (List.dropWhile_sublist nameish).length_le
    simpa [Nat.lt_succ_iff] using h
  · simp

/-- Pattern-match strength of a name run: stronger when a title/nobility
marker occurs in the run (spec 4.3). -/
def patternStrength (run : List Text) : ℚ :=
  if run.any (fun t => decide (t ∈ titles)) then (9 : ℚ)/10 else (7 : ℚ)/10

/-- Modelled from the spec (4.3, Entity Extractor, not in the repository):
every name run containing at least one capitalized token becomes a mention
whose confidence combines pattern strength and segment quality. -/
def extract (seg : Segment) : List Mention :=
  ((nameRuns (tokens seg.text)).filter
      (fun run => run.any isCapitalizedToken)).map
    (fun run => ⟨run, patternStrength run * seg.quality⟩)

/-- Extraction over a list of segments, each segment independently. -/
def extractAll (segs : List Segment) : List Mention :=
  (segs.map extract).flatten

/-- The batched extraction loop of the code (OPTIMISATIONS_MAIN_PY.md,
process_document step 3, batch_size = 50): segments are processed batch by
batch, each batch independently, and the per-batch mention lists are
concatenated. -/
def extractBatched (batches : List (List Segment)) : List Mention :=
  (batches.map extractAll).flatten

/-- A canonical, deduplicated person (spec 3). -/
structure Person where
  pid : Nat
  canonicalName : List Text
  mentions : List Mention
deriving DecidableEq

/-- Modelled from the spec (4.5, Person Registry, not in the repository):
similarity between a new mention and an existing canonical Person; the
exact weighting is a tunable parameter (spec 9), modelled as full-name
match, last-name match, or no match. -/
def sim (m : Mention) (p : Person) : ℚ :=
  if m.nameTokens = p.canonicalName then 1
  else if m.nameTokens.getLastD [] = p.canonicalName.getLastD [] then 1/2
  else 0

/-- Merge threshold for person deduplication (tunable, spec 9). -/
def mergeThreshold : ℚ := 4/5

/-- Index and similarity of the best-matching person, preferring the
earliest index on ties. -/
def bestIdxAux (m : Mention) : List Person → Nat → Option (Nat × ℚ)
  | [], _ => none
  | p :: ps, i =>
      match bestIdxAux m ps (i + 1) with
      | none => some (i, sim m p)
      | some (j, s) => if sim m p < s then some (j, s) else some (i, sim m p)

def bestIdx (m : Mention) (reg : List Person) : Option (Nat × ℚ) :=
  bestIdxAux m reg 0

/-- A fresh canonical Person created from an unmatched mention. -/
def newPerson (reg : List Person) (m : Mention) : Person :=
  ⟨reg.length, m.nameTokens, [m]⟩

/-- Attach a mention to the person at the given index, leaving every other
person untouched. -/
def attachAt : List Person → Nat → Mention → List Person
  | [], _, _ => []
  | p :: ps, 0, m => { p with mentions := m :: p.mentions } :: ps
  | p :: ps, Nat.succ i, m => p :: attachAt ps i m

/-- Modelled from the spec (4.5): resolve one mention against the registry:
attach it to the best-matching person when the similarity reaches the merge
threshold, otherwise create a new canonical Person. -/
def resolveStep (reg : List Person) (m : Mention) : List Person :=
  match bestIdx m reg with
  | some (i, s) =>
      if mergeThreshold ≤ s then attachAt reg i m
      else reg ++ [newPerson reg m]
  | none => reg ++ [newPerson reg m]

/-- Resolve a batch of mentions in order (document order, spec 5). -/
def runResolve (reg : List Person) (ms : List Mention) : List Person :=
  ms.foldl resolveStep reg

/-- Total number of times a mention is attached across all persons of the
registry. -/
def occCount (m : Mention) (reg : List Person) : Nat :=
  (reg.map (fun p => p.mentions.count m)).sum

/-- Mentions contributed by one normalized document text: segment it and
extract from every segment. -/
def mentionsOf (t : Text) : List Mention := extractAll (segmentCore t)

/-- Per-document outcome of a run: a document-level validation failure, or
the mentions it contributed. -/
inductive DocOutcome where
  | failed (e : ValidationError)
  | processed (ms : List Mention)
deriving DecidableEq

/-- Registry state after a run over a document list: a document that fails
validation is skipped, every other document's mentions are resolved in
order (spec 7: stage-local validation errors abort that document only). -/
def runReg : List Text → List Person → List Person
  | [], reg => reg
  | d :: ds, reg =>
      match normalize d with
      | .error _ => runReg ds reg
      | .ok r => runReg ds (runResolve reg (mentionsOf r.text))

/-- Per-document outcomes of a run over a document list. -/
def runOut : List Text → List Person → List DocOutcome
  | [], _ => []
  | d :: ds, reg =>
      match normalize d with
      | .error e => .failed e :: runOut ds reg
      | .ok r =>
          .processed (mentionsOf r.text) ::
            runOut ds (runResolve reg (mentionsOf r.text))

/-- Pipeline stages sharing the processing cache (spec 4.7). -/
inductive Stage where
  | norm
  | seg
  | extractStage
deriving DecidableEq

/-- Cache key: (pipeline stage, content fingerprint).  The fingerprint is a
stable hash of the stage's input content (spec 4.7); it is modelled as the
content itself (an injective stable hash). -/
abbrev CacheKey := Stage × Text

/-- Stage outputs stored in the cache. -/
inductive StageValue where
  | vnorm (r : NormResult)
  | vsegs (s : List Segment)
  | vment (m : List Mention)
deriving DecidableEq

/-- Cold recomputation of a stage on its input content. -/
def stageFn : Stage → Text → StageValue
  | .norm, t => .vnorm ⟨normalizeCore t, improvement t⟩
  | .seg, t => .vsegs (segmentCore t)
  | .extractStage, t => .vment (extract ⟨t, segQuality t⟩)

/-- The processing cache of the code (OPTIMISATIONS_MAIN_PY.md,
_processing_cache): a dictionary from cache key to stage output. -/
abbrev Cache := List (CacheKey × StageValue)

def cacheGet (c : Cache) (k : CacheKey) : Option StageValue :=
  match c.find? (fun e => decide (e.1 = k)) with
  | some e => some e.2
  | none => none

/-- Dictionary assignment: the new binding replaces any previous binding of
the same key. -/
def cachePut (c : Cache) (k : CacheKey) (v : StageValue) : Cache :=
  (k, v) :: c.filter (fun e => decide (e.1 ≠ k))

def cacheSize (c : Cache) : Nat := c.length

/-- _max_cache_size = 1000 from the code (OPTIMISATIONS_MAIN_PY.md,
EnhancedGenealogyParser init). -/
def maxCacheSize : Nat := 1000

/-- _clear_caches from the code: the caches are emptied wholesale. -/
def clearCaches (_ : Cache) : Cache := []

/-- Every cached value equals the cold recomputation on its key. -/
def cacheWF (c : Cache) : Prop :=
  ∀ st t v, cacheGet c (st, t) = some v → v = stageFn st t

/-- The cache get/put pattern of the code (OPTIMISATIONS_MAIN_PY.md,
process_document step 1): on a hit return the cached value, on a miss
compute the stage and store the result. -/
def processStage (st : Stage) (t : Text) (c : Cache) : StageValue × Cache :=
  match cacheGet c (st, t) with
  | some v => (v, c)
  | none => (stageFn st t, cachePut c (st, t) (stageFn st t))

/-- The per-block loop of the code (OPTIMISATIONS_MAIN_PY.md, "Traitement
par blocs"): process the items of a block, then clear the caches. -/
def processBlock (items : List Text) (c : Cache) : Cache :=
  clearCaches (items.foldl (fun acc t => (processStage Stage.norm t acc).2) c)

/-- Distinct cache keys used to exhibit unbounded within-block growth. -/
def ceKey (n : Nat) : CacheKey := (Stage.norm, List.replicate n 'a')

def ceValue : StageValue := .vnorm ⟨[], 0⟩

/-- The cache reached after n dictionary insertions under distinct keys. -/
def buildCache : Nat → Cache
  | 0 => []
  | n + 1 => cachePut (buildCache n) (ceKey n) ceValue

/-- Relationship kinds (spec 3). -/
inductive RelKind where
  | parentChild
  | spouse
  | sibling
  | godparent
  | grandparent
deriving DecidableEq

/-- A typed relationship edge with confidence and inference depth
(spec 3). -/
structure Edge where
  kind : RelKind
  src : Nat
  dst : Nat
  conf : ℚ
  depth : Nat
deriving DecidableEq

/-- Modelled from the spec (4.4, Relationship Inferencer, not in the
repository): the transitive closure pass applying parent-of composed with
parent-of to produce grandparent-of; the confidence of an inferred edge is
the product of the contributing confidences times the decay factor, and its
inference depth is 1. -/
def inferTransitive (decay : ℚ) (es : List Edge) : List Edge :=
  (es.map (fun e1 =>
    (es.map (fun e2 =>
      if e1.kind = RelKind.parentChild ∧ e2.kind = RelKind.parentChild ∧
          e1.dst = e2.src ∧ e1.depth = 0 ∧ e2.depth = 0 then
        [Edge.mk RelKind.grandparent e1.src e2.dst
          (e1.conf * e2.conf * decay) 1]
      else [])).flatten)).flatten

/-- Aggregate quality distribution, embedded from the code
(OPTIMISATIONS_MAIN_PY.md, _analyze_segment_quality quality_ranges). -/
structure QualityDistribution where
  excellent : Nat
  good : Nat
  fair : Nat
  poor : Nat
deriving DecidableEq

def qualityRanges (qs : List ℚ) : QualityDistribution :=
  ⟨qs.countP (fun q => decide ((8 : ℚ)/10 ≤ q)),
   qs.countP (fun q => decide ((6 : ℚ)/10 ≤ q ∧ q < 8/10)),
   qs.countP (fun q => decide ((4 : ℚ)/10 ≤ q ∧ q < 6/10)),
   qs.countP (fun q => decide (q < (4 : ℚ)/10))⟩

/-- A segment record as passed to _analyze_segment_quality: a dictionary
that may or may not carry a quality_score (the code reads it with default
0.0). -/
structure SegmentDict where
  quality_score : Option ℚ
deriving DecidableEq

structure QualityReport where
  avg_quality : ℚ
  quality_distribution : QualityDistribution
  total_segments : Nat
deriving DecidableEq

/-- round(x, 3) of the code: rounding to three decimal places. -/
def round3 (q : ℚ) : ℚ := (round (q * 1000) : ℤ) / 1000

/-- Embedded from the code (OPTIMISATIONS_MAIN_PY.md,
_analyze_segment_quality): average quality is the sum of the quality
scores divided by their number, with no emptiness guard — on the empty
list the Python division raises ZeroDivisionError, modelled as none. -/
def analyzeSegmentQuality (segments : List SegmentDict) :
    Option QualityReport :=
  if (segments.map (fun s => s.quality_score.getD 0)).length = 0 then none
  else
    some ⟨round3 ((segments.map (fun s => s.quality_score.getD 0)).sum /
        ((segments.map (fun s => s.quality_score.getD 0)).length : ℚ)),
      qualityRanges (segments.map (fun s => s.quality_score.getD 0)),
      segments.length⟩

/-- Values a loosely-typed configuration dictionary can carry. -/
inductive ConfigValue where
  | num (q : ℚ)
  | str (s : String)
deriving DecidableEq

/-- The numeric processing parameters validated by Config.validate_config
(OPTIMISATIONS_MAIN_PY.md), with their defaults MAX_PDF_PAGES = 500 and
MAX_TEXT_LENGTH = 1_000_000. -/
def paramDefaults : List (String × ℚ) :=
  [("max_pdf_pages", 500), ("max_text_length", 1000000)]

def isPosNum : ConfigValue → Bool
  | .num q => decide (0 < q)
  | _ => false

/-- Dictionary lookup. -/
def lookupKey (d : List (String × ConfigValue)) (k : String) :
    Option ConfigValue :=
  match d.find? (fun e => decide (e.1 = k)) with
  | some e => some e.2
  | none => none

/-- A key is acceptable when absent (the default is used) or bound to a
positive number. -/
def validValue (o : Option ConfigValue) : Bool :=
  match o with
  | some v => isPosNum v
  | none => true

/-- One iteration of the validation loop: raise ValueError (the offending
key) unless the effective value is a positive number, otherwise prepend the
validated entry. -/
def checkParam (k : String) (v : ConfigValue)
    (rest : Except String (List (String × ℚ))) :
    Except String (List (String × ℚ)) :=
  match v with
  | .num q =>
      if 0 < q then Except.map (fun r => (k, q) :: r) rest else .error k
  | .str _ => .error k

/-- Embedded from the code (OPTIMISATIONS_MAIN_PY.md,
Config.validate_config): for each numeric parameter take the provided
value or the default, raise ValueError unless it is a positive number, and
collect the validated values. -/
def validateParams (d : List (String × ConfigValue)) :
    List (String × ℚ) → Except String (List (String × ℚ))
  | [] => .ok []
  | (k, dv) :: rest =>
      checkParam k ((lookupKey d k).getD (.num dv)) (validateParams d rest)

def validate_config (d : List (String × ConfigValue)) :
    Except String (List (String × ℚ)) :=
  validateParams d paramDefaults

/-- The value a validated configuration carries for a key: the provided
number when present, the default otherwise. -/
def effectiveValue (d : List (String × ConfigValue)) (k : String)
    (dv : ℚ) : ℚ :=
  match lookupKey d k with
  | some (.num q) => q
  | _ => dv

/-- A concrete document text used to instantiate the idempotence theorem:
contains archaic forms rewritten by the table. -/
def normDemo : Text := "le filz estoit la".toList

/-- Concrete inputs used by the witness theorems. -/
def mentionA : Mention := ⟨["Jean".toList], 1⟩

def mentionB : Mention := ⟨["Pierre".toList, "Dupont".toList], 1⟩

def segDemoA : Segment := ⟨"Jean Dupont".toList, 1⟩

def segDemoB : Segment := ⟨"Pierre 1687".toList, 1⟩

def edgeAB : Edge := ⟨.parentChild, 0, 1, 1, 0⟩

def edgeBC : Edge := ⟨.parentChild, 1, 2, 1, 0⟩

def configDemo : List (String × ConfigValue) := [("max_pdf_pages", .num 10)]

def segsDemo : List SegmentDict := [⟨some 1⟩]

/-- Three segment records whose exact average 1/6 is changed by the
three-decimal rounding of the code. -/
def segsCE : List SegmentDict := [⟨some 0⟩, ⟨some 0⟩, ⟨some (1/2)⟩]

def qsDemo : List ℚ := [1]

theorem canonTable_rhs_not_key :
    ∀ p ∈ canonTable, ∀ q ∈ canonTable, q.1 ≠ p.2 := by decide

theorem canonTable_rhs_ne_nil : ∀ p ∈ canonTable, p.2 ≠ [] := by decide

theorem canonTable_rhs_no_space : ∀ p ∈ canonTable, ' ' ∉ p.2 := by decide

theorem canonTable_rhs_len : ∀ p ∈ canonTable, p.2.length ≤ p.1.length := by
  decide

/-- A token produced by `canonToken` is a fixed point of `canonToken`:
right-hand sides of the table are never left-hand sides. -/
theorem canonToken_idem (t : Text) : canonToken (canonToken t) = canonToken t := by
  unfold canonToken
  cases h : canonTable.find? (fun p => decide (p.1 = t)) with
  | none => simp [h]
  | some p =>
      have hmem : p ∈ canonTable := List.mem_of_find?_eq_some h
      have hnone : canonTable.find? (fun q => decide (q.1 = p.2)) = none := by
        rw [List.find?_eq_none]
        intro q hq
        simpa using canonTable_rhs_not_key p hmem q hq
      simp [hnone]

theorem canonToken_ne_nil {t : Text} (h : t ≠ []) : canonToken t ≠ [] := by
  unfold canonToken
  cases hf : canonTable.find? (fun p => decide (p.1 = t)) with
  | none => simpa using h
  | some p => simpa using canonTable_rhs_ne_nil p (List.mem_of_find?_eq_some hf)

theorem canonToken_no_space {t : Text} (h : ' ' ∉ t) : ' ' ∉ canonToken t := by
  unfold canonToken
  cases hf : canonTable.find? (fun p => decide (p.1 = t)) with
  | none => simpa using h
  | some p =>
      simpa using canonTable_rhs_no_space p (List.mem_of_find?_eq_some hf)

theorem canonToken_length_le (t : Text) : (canonToken t).length ≤ t.length := by
  unfold canonToken
  cases hf : canonTable.find? (fun p => decide (p.1 = t)) with
  | none => simp
  | some p =>
      have hmem : p ∈ canonTable := List.mem_of_find?_eq_some hf
      have hkey : p.1 = t := by simpa using List.find?_some hf
      simpa [hkey] using canonTable_rhs_len p hmem

/-! Tokenization lemmas: pieces produced by splitting on the space
character are space-free, and splitting is a left inverse of joining with
single spaces on space-free nonempty pieces. -/

theorem splitOnP_sep_eq_false (p : Char → Bool) (xs : Text) :
    ∀ l ∈ xs.splitOnP p, ∀ a ∈ l, p a = false := by
  induction xs with
  | nil =>
      intro l hl a ha
      simp only [List.splitOnP_nil, List.mem_singleton] at hl
      subst hl
      simp at ha
  | cons x xs ih =>
      intro l hl a ha
      rw [List.splitOnP_cons] at hl
      by_cases hx : p x
      · rw [if_pos hx] at hl
        rcases List.mem_cons.1 hl with h | h
        · subst h; simp at ha
        · exact ih l h a ha
      · rw [if_neg hx] at hl
        cases hsp : xs.splitOnP p with
        | nil => exact absurd hsp (List.splitOnP_ne_nil p xs)
        | cons hd tl =>
            rw [hsp] at hl
            simp only [List.modifyHead, List.mem_cons] at hl
            rcases hl with h | h
            · subst h
              rcases List.mem_cons.1 ha with h | h
              · subst h; exact Bool.eq_false_iff.2 hx
              · exact ih hd (by rw [hsp]; exact List.mem_cons_self hd tl) a h
            · exact ih l (by rw [hsp]; exact List.mem_cons_of_mem hd h) a ha

theorem mem_tokens_ne_nil {s t : Text} (h : t ∈ tokens s) : t ≠ [] := by
  unfold tokens at h
  simpa using (List.mem_filter.1 h).2

theorem mem_tokens_no_space {s t : Text} (h : t ∈ tokens s) : ' ' ∉ t := by
  unfold tokens at h
  have hsp : t ∈ s.splitOn ' ' := (List.mem_filter.1 h).1
  intro hmem
  have := splitOnP_sep_eq_false (fun c => c == ' ') s t hsp ' ' hmem
  simp at this

theorem tokens_intercalate {ls : List Text} (h1 : ∀ l ∈ ls, l ≠ [])
    (h2 : ∀ l ∈ ls, ' ' ∉ l) (h3 : ls ≠ []) :
    tokens ([' '].intercalate ls) = ls := by
  unfold tokens
  rw [List.splitOn_intercalate ls ' ' h2 h3]
  exact List.filter_eq_self.2 (fun l hl => by simpa using h1 l hl)

theorem tokens_normalizeCore (s : Text) (h : tokens s ≠ []) :
    tokens (normalizeCore s) = (tokens s).map canonToken := by
  unfold normalizeCore
  refine tokens_intercalate ?_ ?_ ?_
  · intro l hl
    rcases List.mem_map.1 hl with ⟨t, ht, rfl⟩
    exact canonToken_ne_nil (mem_tokens_ne_nil ht)
  · intro l hl
    rcases List.mem_map.1 hl with ⟨t, ht, rfl⟩
    exact canonToken_no_space (mem_tokens_no_space ht)
  · simpa using h

theorem editCount_normalizeCore (s : Text) (h : tokens s ≠ []) :
    editCount (normalizeCore s) = 0 := by
  unfold editCount
  rw [tokens_normalizeCore s h, List.countP_eq_zero]
  intro t ht
  rcases List.mem_map.1 ht with ⟨u, _, rfl⟩
  simpa using canonToken_idem u

theorem normalizeCore_idem (s : Text) (h : tokens s ≠ []) :
    normalizeCore (normalizeCore s) = normalizeCore s :=
  calc normalizeCore (normalizeCore s)
      = [' '].intercalate ((tokens (normalizeCore s)).map canonToken) := rfl
    _ = [' '].intercalate (((tokens s).map canonToken).map canonToken) := by
          rw [tokens_normalizeCore s h]
    _ = [' '].intercalate ((tokens s).map canonToken) := by
          rw [List.map_map]
          exact congrArg _ (List.map_congr_left (fun t _ => canonToken_idem t))
    _ = normalizeCore s := rfl

theorem length_intercalate_singleton (x : Char) :
    ∀ ls : List Text, ls ≠ [] →
      ([x].intercalate ls).length + 1 = (ls.map List.length).sum + ls.length := by
  intro ls
  induction ls with
  | nil => exact fun h => absurd rfl h
  | cons a tl ih =>
      intro _
      cases tl with
      | nil => simp [List.intercalate, List.intersperse_singleton]
      | cons b tl2 =>
          have ih2 := ih (by simp)
          have hstep : ([x].intercalate (a :: b :: tl2)) =
              a ++ x :: ([x].intercalate (b :: tl2)) := by
            simp [List.intercalate, List.intersperse_cons_cons]
          rw [hstep]
          simp only [List.length_append, List.length_cons, List.map_cons,
            List.sum_cons] at ih2 ⊢
          omega

theorem sum_length_filter_le (p : Text → Bool) (l : List Text) :
    (((l.filter p).map List.length).sum : ℕ) ≤ ((l.map List.length).sum : ℕ) :=
  List.Sublist.sum_le_sum ((l.filter_sublist).map List.length)
    (fun _ _ => Nat.zero_le _)

theorem length_normalizeCore_le (s : Text) (h : tokens s ≠ []) :
    (normalizeCore s).length ≤ s.length := by
  have hparts : s.splitOn ' ' ≠ [] := by
    unfold List.splitOn
    exact List.splitOnP_ne_nil _ s
  have hsrc : ([' '].intercalate (s.splitOn ' ')).length + 1 =
      ((s.splitOn ' ').map List.length).sum + (s.splitOn ' ').length :=
    length_intercalate_singleton ' ' _ hparts
  rw [List.intercalate_splitOn] at hsrc
  have hmapped : (((tokens s).map canonToken).map List.length).sum ≤
      ((tokens s).map List.length).sum := by
    rw [List.map_map]
    exact List.sum_le_sum (fun t _ => canonToken_length_le t)
  have hfilter : ((tokens s).map List.length).sum ≤
      ((s.splitOn ' ').map List.length).sum :=
    sum_length_filter_le _ _
  have hcount : (tokens s).length ≤ (s.splitOn ' ').length :=
    List.length_filter_le _ _
  have hnorm : (normalizeCore s).length + 1 =
      (((tokens s).map canonToken).map List.length).sum +
        ((tokens s).map canonToken).length :=
    length_intercalate_singleton ' ' _ (by simpa using h)
  rw [List.length_map] at hnorm
  omega

theorem tokens_normalizeCore_ne_nil (s : Text) (h : tokens s ≠ []) :
    tokens (normalizeCore s) ≠ [] := by
  rw [tokens_normalizeCore s h]
  simpa using h

theorem improvement_normalizeCore (s : Text) (h : tokens s ≠ []) :
    improvement (normalizeCore s) = 0 := by
  unfold improvement
  rw [editCount_normalizeCore s h]
  simp

theorem normalize_eq_ok {raw : Text} {r : NormResult} :
    normalize raw = .ok r ↔
      tokens raw ≠ [] ∧ raw.length ≤ MAX_TEXT_LENGTH ∧
        r = ⟨normalizeCore raw, improvement raw⟩ := by
  unfold normalize
  split_ifs with h1 h2
  · simp [h1]
  · constructor
    · intro h; cases h
    · intro ⟨_, hle, _⟩; omega
  · constructor
    · intro h
      cases h
      exact ⟨h1, by omega, rfl⟩
    · intro ⟨_, _, hr⟩
      rw [hr]

/-- C3: normalize is idempotent.  For every raw text on which `normalize`
succeeds, normalizing the normalized text succeeds again, returns the same
text, and returns an improvement quotient of 0. -/
theorem normalize_idempotent (x : Text) (r : NormResult)
    (h : normalize x = .ok r) :
    ∃ r₂, normalize r.text = .ok r₂ ∧ r₂.text = r.text ∧
      r₂.improvement = 0 := by
  obtain ⟨h1, h2, rfl⟩ := normalize_eq_ok.1 h
  refine ⟨⟨normalizeCore (normalizeCore x), improvement (normalizeCore x)⟩,
    ?_, ?_, ?_⟩
  · exact normalize_eq_ok.2 ⟨tokens_normalizeCore_ne_nil x h1,
      le_trans (length_normalizeCore_le x h1) h2, rfl⟩
  · exact normalizeCore_idem x h1
  · exact improvement_normalizeCore x h1

/-- Witness for C3 at the concrete input `normDemo`. -/
theorem normalize_idempotent_witness :
    ∃ r₂, normalize (normalizeCore normDemo) = .ok r₂ ∧
      r₂.text = normalizeCore normDemo ∧ r₂.improvement = 0 :=
  normalize_idempotent normDemo
    ⟨normalizeCore normDemo, improvement normDemo⟩ rfl

theorem extractAll_append (l1 l2 : List Segment) :
    extractAll (l1 ++ l2) = extractAll l1 ++ extractAll l2 := by
  simp [extractAll]

/-- C4: batch-size independence of entity extraction.  For every partition
of a segment list into batches, the concatenation of per-batch extractions
equals extraction over the whole list, hence the two mention sets are
identical. -/
theorem extract_batch_independent (batches : List (List Segment))
    (segs : List Segment) (h : batches.flatten = segs) :
    extractBatched batches = extractAll segs ∧
      ∀ m, m ∈ extractBatched batches ↔ m ∈ extractAll segs := by
  subst h
  have he : extractBatched batches = extractAll batches.flatten := by
    induction batches with
    | nil => rfl
    | cons b bs ih =>
        simp only [extractBatched, List.map_cons, List.flatten_cons,
          extractAll_append]
        simp only [extractBatched] at ih
        rw [ih]
  exact ⟨he, fun m => by rw [he]⟩

/-- Witness for C4: two singleton batches versus the flat segment list. -/
theorem extract_batch_independent_witness :
    extractBatched [[segDemoA], [segDemoB]] =
        extractAll [segDemoA, segDemoB] ∧
      ∀ m, m ∈ extractBatched [[segDemoA], [segDemoB]] ↔
        m ∈ extractAll [segDemoA, segDemoB] :=
  extract_batch_independent [[segDemoA], [segDemoB]] [segDemoA, segDemoB] rfl

/-- C8: for every pair of explicit parent-child edges A→B and B→C in the
accumulated graph, `inferTransitive` produces grandparent-of(A→C) with
confidence conf(A→B) × conf(B→C) × decay and inference depth 1; and every
inferred edge's confidence is the product of its two contributing edges'
confidences times the decay factor, at depth 1. -/
theorem inferTransitive_spec (decay : ℚ) (es : List Edge) :
    (∀ A B C c1 c2,
        Edge.mk .parentChild A B c1 0 ∈ es →
        Edge.mk .parentChild B C c2 0 ∈ es →
        Edge.mk .grandparent A C (c1 * c2 * decay) 1 ∈
          inferTransitive decay es) ∧
      ∀ e ∈ inferTransitive decay es,
        ∃ e1 ∈ es, ∃ e2 ∈ es,
          e.conf = e1.conf * e2.conf * decay ∧ e.depth = 1 ∧
            e.kind = .grandparent ∧ e.src = e1.src ∧ e.dst = e2.dst := by
  constructor
  · intro A B C c1 c2 h1 h2
    simp only [inferTransitive, List.mem_flatten, List.mem_map]
    refine ⟨_, ⟨Edge.mk .parentChild A B c1 0, h1, rfl⟩, ?_⟩
    simp only [List.mem_flatten, List.mem_map]
    refine ⟨_, ⟨Edge.mk .parentChild B C c2 0, h2, rfl⟩, ?_⟩
    simp
  · intro e he
    simp only [inferTransitive, List.mem_flatten, List.mem_map] at he
    obtain ⟨outer, ⟨e1, he1, rfl⟩, hin⟩ := he
    simp only [List.mem_flatten, List.mem_map] at hin
    obtain ⟨inner, ⟨e2, he2, rfl⟩, hin2⟩ := hin
    by_cases hc : e1.kind = RelKind.parentChild ∧
        e2.kind = RelKind.parentChild ∧ e1.dst = e2.src ∧
          e1.depth = 0 ∧ e2.depth = 0
    · rw [if_pos hc, List.mem_singleton] at hin2
      subst hin2
      exact ⟨e1, he1, e2, he2, rfl, rfl, rfl, rfl, rfl⟩
    · rw [if_neg hc] at hin2
      simp at hin2

/-- Witness for C8 on a concrete two-edge graph. -/
theorem inferTransitive_spec_witness :
    Edge.mk .grandparent 0 2 ((1 : ℚ) * 1 * (9/10)) 1 ∈
      inferTransitive (9/10) [edgeAB, edgeBC] :=
  (inferTransitive_spec (9/10) [edgeAB, edgeBC]).1 0 1 2 1 1
    (List.Mem.head _) (List.Mem.tail _ (List.Mem.head _))

/-- Exactly one of the four quality-bucket predicates of the code holds for
any score. -/
theorem bucketIndicator (q : ℚ) :
    ((if (8 : ℚ)/10 ≤ q then 1 else 0) +
      (if (6 : ℚ)/10 ≤ q ∧ q < 8/10 then 1 else 0) +
      (if (4 : ℚ)/10 ≤ q ∧ q < 6/10 then 1 else 0) +
      (if q < (4 : ℚ)/10 then 1 else 0) : ℕ) = 1 := by
  by_cases h1 : (8 : ℚ)/10 ≤ q
  · have h2 : ¬((6 : ℚ)/10 ≤ q ∧ q < 8/10) := fun h => absurd h1 (not_le.2 h.2)
    have h3 : ¬((4 : ℚ)/10 ≤ q ∧ q < 6/10) := fun h => by linarith [h.2]
    have h4 : ¬(q < (4 : ℚ)/10) := by linarith
    simp [h1, h2, h3, h4]
  · push_neg at h1
    by_cases h2 : (6 : ℚ)/10 ≤ q
    · have h3 : ¬((4 : ℚ)/10 ≤ q ∧ q < 6/10) := fun h => absurd h2 (not_le.2 h.2)
      have h4 : ¬(q < (4 : ℚ)/10) := by linarith
      simp [not_le.2 h1, h2, h1, h3, h4]
    · push_neg at h2
      by_cases h3 : (4 : ℚ)/10 ≤ q
      · have h4 : ¬(q < (4 : ℚ)/10) := not_lt.2 h3
        simp [not_le.2 h1, not_le.2 h2, h3, h2, h4]
      · push_neg at h3
        simp [not_le.2 h1, not_le.2 h2, not_le.2 h3, h3]

/-- C7: the aggregate quality distribution partitions scores into exactly
four buckets with the stated boundaries: the four counts sum to the number
of items, and each score satisfies exactly one bucket predicate. -/
theorem qualityRanges_partition (qs : List ℚ) :
    ((qualityRanges qs).excellent + (qualityRanges qs).good +
        (qualityRanges qs).fair + (qualityRanges qs).poor = qs.length) ∧
      ∀ q ∈ qs,
        ((if (8 : ℚ)/10 ≤ q then 1 else 0) +
          (if (6 : ℚ)/10 ≤ q ∧ q < 8/10 then 1 else 0) +
          (if (4 : ℚ)/10 ≤ q ∧ q < 6/10 then 1 else 0) +
          (if q < (4 : ℚ)/10 then 1 else 0) : ℕ) = 1 := by
  refine ⟨?_, fun q _ => bucketIndicator q⟩
  induction qs with
  | nil => simp [qualityRanges]
  | cons q qs ih =>
      have hq := bucketIndicator q
      simp only [qualityRanges, List.countP_cons, List.length_cons,
        decide_eq_true_eq] at ih ⊢
      omega

/-- Witness for C7 at the concrete score list `qsDemo`. -/
theorem qualityRanges_partition_witness :
    ((qualityRanges qsDemo).excellent + (qualityRanges qsDemo).good +
        (qualityRanges qsDemo).fair + (qualityRanges qsDemo).poor =
          qsDemo.length) ∧
      ((if (8 : ℚ)/10 ≤ (1 : ℚ) then 1 else 0) +
        (if (6 : ℚ)/10 ≤ (1 : ℚ) ∧ (1 : ℚ) < 8/10 then 1 else 0) +
        (if (4 : ℚ)/10 ≤ (1 : ℚ) ∧ (1 : ℚ) < 6/10 then 1 else 0) +
        (if (1 : ℚ) < (4 : ℚ)/10 then 1 else 0) : ℕ) = 1 :=
  ⟨(qualityRanges_partition qsDemo).1,
    (qualityRanges_partition qsDemo).2 1 (List.Mem.head _)⟩

theorem cacheGet_cachePut (c : Cache) (k : CacheKey) (v : StageValue) :
    cacheGet (cachePut c k v) k = some v := by
  simp [cacheGet, cachePut, List.find?_cons_of_pos]

theorem cacheGet_cachePut_ne (c : Cache) (k k' : CacheKey) (v : StageValue)
    (h : k' ≠ k) : cacheGet (cachePut c k v) k' = cacheGet c k' := by
  unfold cacheGet cachePut
  have hhead : decide (((k, v) : CacheKey × StageValue).1 = k') = false := by
    rw [decide_eq_false_iff_not]
    exact fun hk => h hk.symm
  simp only [List.find?_cons, hhead]
  suffices hf : (c.filter (fun e => decide (e.1 ≠ k))).find?
      (fun e => decide (e.1 = k')) = c.find? (fun e => decide (e.1 = k')) by
    rw [hf]
  induction c with
  | nil => rfl
  | cons e es ih =>
      by_cases he : e.1 = k
      · have h1 : decide (e.1 ≠ k) = false := by simp [he]
        have h2 : decide (e.1 = k') = false := by
          rw [decide_eq_false_iff_not, he]
          exact fun hk => h hk.symm
        simp only [List.filter_cons, h1, List.find?_cons, h2,
          Bool.false_eq_true, if_false]
        exact ih
      · have h1 : decide (e.1 ≠ k) = true := by simpa using he
        simp only [List.filter_cons, h1, if_true, List.find?_cons]
        cases hp : decide (e.1 = k')
        · exact ih
        · rfl

/-- C2: the cached path and the cold path agree.  On a coherent cache
(every stored value is the cold recomputation on its key — the invariant
the code's get/put pattern maintains), the processing step returns exactly
the cold recomputation, the updated cache stays coherent, and a get
directly after a put of the same fingerprint returns the stored value. -/
theorem cache_hit_equals_cold (st : Stage) (t : Text) (c : Cache)
    (h : cacheWF c) :
    (processStage st t c).1 = stageFn st t ∧
      cacheWF (processStage st t c).2 ∧
      cacheGet (cachePut c (st, t) (stageFn st t)) (st, t) =
        some (stageFn st t) := by
  refine ⟨?_, ?_, cacheGet_cachePut c (st, t) (stageFn st t)⟩
  · unfold processStage
    cases hg : cacheGet c (st, t) with
    | none => rfl
    | some v => simpa using h st t v hg
  · unfold processStage
    cases hg : cacheGet c (st, t) with
    | none =>
        intro st' t' v' hget
        by_cases hk : ((st', t') : CacheKey) = (st, t)
        · obtain ⟨h1, h2⟩ := Prod.ext_iff.1 hk
          subst h1; subst h2
          rw [cacheGet_cachePut] at hget
          exact (Option.some_inj.1 hget).symm
        · rw [cacheGet_cachePut_ne _ _ _ _ hk] at hget
          exact h st' t' v' hget
    | some v => exact h

/-- Witness for C2 on the empty (trivially coherent) cache. -/
theorem cache_hit_equals_cold_witness :
    (processStage Stage.norm normDemo []).1 = stageFn Stage.norm normDemo ∧
      cacheWF (processStage Stage.norm normDemo []).2 ∧
      cacheGet (cachePut [] (Stage.norm, normDemo)
          (stageFn Stage.norm normDemo)) (Stage.norm, normDemo) =
        some (stageFn Stage.norm normDemo) :=
  cache_hit_equals_cold Stage.norm normDemo []
    (fun st t v h => by simp [cacheGet] at h)

theorem validateParams_spec (d : List (String × ConfigValue))
    (ps : List (String × ℚ)) (hpos : ∀ p ∈ ps, 0 < p.2) :
    ((∃ cfg, validateParams d ps = .ok cfg) ↔
        ∀ p ∈ ps, validValue (lookupKey d p.1) = true) ∧
      ∀ cfg, validateParams d ps = .ok cfg →
        cfg = ps.map (fun p => (p.1, effectiveValue d p.1 p.2)) := by
  induction ps with
  | nil =>
      refine ⟨⟨fun _ => by simp, fun _ => ⟨[], rfl⟩⟩, ?_⟩
      intro cfg h
      simp only [validateParams] at h
      cases h
      rfl
  | cons p rest ih =>
      obtain ⟨k, dv⟩ := p
      have hdv : 0 < dv := hpos (k, dv) (List.mem_cons_self _ _)
      obtain ⟨ih1, ih2⟩ :=
        ih (fun q hq => hpos q (List.mem_cons_of_mem _ hq))
      have hrest_of :
          ∀ cfg, validateParams d ((k, dv) :: rest) = .ok cfg →
            ∃ r, validateParams d rest = .ok r := by
        intro cfg hcfg
        simp only [validateParams] at hcfg
        cases hlk : lookupKey d k with
        | none =>
            rw [hlk, Option.getD_none] at hcfg
            simp only [checkParam] at hcfg
            rw [if_pos hdv] at hcfg
            cases hr : validateParams d rest with
            | ok r => exact ⟨r, rfl⟩
            | error e => rw [hr] at hcfg; simp [Except.map] at hcfg
        | some v =>
            rw [hlk, Option.getD_some] at hcfg
            cases v with
            | num qq =>
                simp only [checkParam] at hcfg
                by_cases h0 : 0 < qq
                · rw [if_pos h0] at hcfg
                  cases hr : validateParams d rest with
                  | ok r => exact ⟨r, rfl⟩
                  | error e => rw [hr] at hcfg; simp [Except.map] at hcfg
                · rw [if_neg h0] at hcfg; cases hcfg
            | str s => simp only [checkParam] at hcfg; cases hcfg
      refine ⟨⟨?_, ?_⟩, ?_⟩
      · rintro ⟨cfg, hcfg⟩ q hq
        rcases List.mem_cons.1 hq with rfl | hq2
        · simp only [validateParams] at hcfg
          cases hlk : lookupKey d k with
          | none => simp [validValue]
          | some v =>
              rw [hlk, Option.getD_some] at hcfg
              cases v with
              | num qq =>
                  simp only [validValue, isPosNum, decide_eq_true_eq]
                  by_contra h0
                  simp only [checkParam] at hcfg
                  rw [if_neg h0] at hcfg
                  cases hcfg
              | str s => simp only [checkParam] at hcfg; cases hcfg
        · obtain ⟨r, hr⟩ := hrest_of cfg hcfg
          exact ih1.1 ⟨r, hr⟩ q hq2
      · intro hall
        obtain ⟨cfgr, hr⟩ :=
          ih1.2 (fun q hq => hall q (List.mem_cons_of_mem _ hq))
        have hhead := hall (k, dv) (List.mem_cons_self _ _)
        simp only [validateParams]
        cases hlk : lookupKey d k with
        | none =>
            rw [Option.getD_none]
            simp only [checkParam]
            rw [if_pos hdv, hr]
            exact ⟨(k, dv) :: cfgr, rfl⟩
        | some v =>
            rw [hlk] at hhead
            rw [Option.getD_some]
            cases v with
            | num qq =>
                have h0 : 0 < qq := by
                  simpa [validValue, isPosNum] using hhead
                simp only [checkParam]
                rw [if_pos h0, hr]
                exact ⟨(k, qq) :: cfgr, rfl⟩
            | str s => simp [validValue, isPosNum] at hhead
      · intro cfg hcfg
        obtain ⟨r, hr⟩ := hrest_of cfg hcfg
        simp only [validateParams] at hcfg
        cases hlk : lookupKey d k with
        | none =>
            rw [hlk, Option.getD_none] at hcfg
            simp only [checkParam] at hcfg
            rw [if_pos hdv, hr] at hcfg
            simp only [Except.map] at hcfg
            cases hcfg
            rw [List.map_cons]
            refine congrArg₂ List.cons ?_ (ih2 r hr)
            simp [effectiveValue, hlk]
        | some v =>
            rw [hlk, Option.getD_some] at hcfg
            cases v with
            | num qq =>
                simp only [checkParam] at hcfg
                by_cases h0 : 0 < qq
                · rw [if_pos h0, hr] at hcfg
                  simp only [Except.map] at hcfg
                  cases hcfg
                  rw [List.map_cons]
                  refine congrArg₂ List.cons ?_ (ih2 r hr)
                  simp [effectiveValue, hlk]
                · rw [if_neg h0] at hcfg; cases hcfg
            | str s => cases hcfg

/-- C9: configuration validation fails fast at construction.  Validation
succeeds exactly when every provided numeric processing parameter is bound
to a positive number, and on success the validated configuration carries
the provided values, with the defaults filled in for absent keys. -/
theorem validate_config_spec (d : List (String × ConfigValue)) :
    ((∃ cfg, validate_config d = .ok cfg) ↔
        ∀ p ∈ paramDefaults, validValue (lookupKey d p.1) = true) ∧
      ∀ cfg, validate_config d = .ok cfg →
        cfg = paramDefaults.map (fun p => (p.1, effectiveValue d p.1 p.2)) :=
  validateParams_spec d paramDefaults (by decide)

/-- Witness for C9 at a concrete configuration dictionary providing a
positive max_pdf_pages. -/
theorem validate_config_spec_witness :
    ∃ cfg, validate_config configDemo = .ok cfg :=
  (validate_config_spec configDemo).1.2 (by decide)

theorem occCount_nil (m : Mention) : occCount m [] = 0 := rfl

theorem occCount_cons (m : Mention) (p : Person) (ps : List Person) :
    occCount m (p :: ps) = p.mentions.count m + occCount m ps := by
  simp [occCount]

theorem occCount_append_singleton (m : Mention) (reg : List Person)
    (p : Person) :
    occCount m (reg ++ [p]) = occCount m reg + p.mentions.count m := by
  simp [occCount]

theorem attachAt_map_pid (reg : List Person) (i : Nat) (m : Mention) :
    (attachAt reg i m).map Person.pid = reg.map Person.pid := by
  induction reg generalizing i with
  | nil => rfl
  | cons p ps ih =>
      cases i with
      | zero => simp [attachAt]
      | succ j => simp [attachAt, ih j]

theorem occCount_attachAt (reg : List Person) (i : Nat) (m m' : Mention)
    (hi : i < reg.length) :
    occCount m' (attachAt reg i m) =
      occCount m' reg + (if m' = m then 1 else 0) := by
  induction reg generalizing i with
  | nil => simp at hi
  | cons p ps ih =>
      cases i with
      | zero =>
          simp only [attachAt, occCount_cons, List.count_cons, beq_iff_eq]
          have hsw : (if m = m' then (1 : ℕ) else 0) =
              if m' = m then 1 else 0 := by
            by_cases hmm : m = m'
            · subst hmm; rfl
            · rw [if_neg hmm, if_neg (fun h => hmm h.symm)]
          omega
      | succ j =>
          have hj : j < ps.length := by simpa [Nat.succ_lt_succ_iff] using hi
          simp only [attachAt, occCount_cons, ih j hj]
          omega

theorem bestIdxAux_lt (m : Mention) :
    ∀ (l : List Person) (k i : Nat) (s : ℚ),
      bestIdxAux m l k = some (i, s) → k ≤ i ∧ i < k + l.length := by
  intro l
  induction l with
  | nil => intro k i s h; cases h
  | cons p ps ih =>
      intro k i s h
      simp only [bestIdxAux] at h
      cases hrec : bestIdxAux m ps (k + 1) with
      | none =>
          rw [hrec] at h
          simp only [] at h
          obtain ⟨h1, _⟩ := Prod.ext_iff.1 (Option.some_inj.1 h)
          subst h1
          simp only [List.length_cons]
          omega
      | some js =>
          obtain ⟨j, s0⟩ := js
          rw [hrec] at h
          simp only [] at h
          by_cases hlt : sim m p < s0
          · rw [if_pos hlt] at h
            obtain ⟨h1, _⟩ := Prod.ext_iff.1 (Option.some_inj.1 h)
            subst h1
            have hb := ih (k + 1) j s0 hrec
            simp only [List.length_cons]
            omega
          · rw [if_neg hlt] at h
            obtain ⟨h1, _⟩ := Prod.ext_iff.1 (Option.some_inj.1 h)
            subst h1
            simp only [List.length_cons]
            omega

theorem occCount_resolveStep (reg : List Person) (m m' : Mention) :
    occCount m' (resolveStep reg m) =
      occCount m' reg + (if m' = m then 1 else 0) := by
  unfold resolveStep
  have happ : occCount m' (reg ++ [newPerson reg m]) =
      occCount m' reg + (if m' = m then 1 else 0) := by
    rw [occCount_append_singleton]
    simp only [newPerson, List.count_cons, List.count_nil, beq_iff_eq]
    have hsw : (if m = m' then (1 : ℕ) else 0) =
        if m' = m then 1 else 0 := by
      by_cases hmm : m = m'
      · subst hmm; rfl
      · rw [if_neg hmm, if_neg (fun h => hmm h.symm)]
    omega
  cases hb : bestIdx m reg with
  | none => exact happ
  | some is =>
      obtain ⟨i, s⟩ := is
      simp only []
      by_cases hsim : mergeThreshold ≤ s
      · rw [if_pos hsim]
        have hi : i < reg.length := by
          have := bestIdxAux_lt m reg 0 i s hb
          omega
        exact occCount_attachAt reg i m m' hi
      · rw [if_neg hsim]
        exact happ

theorem occCount_runResolve (ms : List Mention) (reg : List Person)
    (m : Mention) :
    occCount m (runResolve reg ms) = occCount m reg + ms.count m := by
  induction ms generalizing reg with
  | nil => simp [runResolve]
  | cons m0 ms ih =>
      have hstep : runResolve reg (m0 :: ms) =
          runResolve (resolveStep reg m0) ms := rfl
      rw [hstep, ih (resolveStep reg m0), occCount_resolveStep]
      simp only [List.count_cons, beq_iff_eq]
      have hsw : (if m0 = m then (1 : ℕ) else 0) =
          if m = m0 then 1 else 0 := by
        by_cases hmm : m0 = m
        · subst hmm; rfl
        · rw [if_neg hmm, if_neg (fun h => hmm h.symm)]
      omega

theorem resolveStep_pids (reg : List Person) (m : Mention) :
    (resolveStep reg m).map Person.pid = reg.map Person.pid ∨
      (resolveStep reg m).map Person.pid =
        reg.map Person.pid ++ [reg.length] := by
  unfold resolveStep
  have happ : (reg ++ [newPerson reg m]).map Person.pid =
      reg.map Person.pid ++ [reg.length] := by
    simp [newPerson]
  cases bestIdx m reg with
  | none => exact Or.inr happ
  | some is =>
      obtain ⟨i, s⟩ := is
      simp only []
      by_cases hsim : mergeThreshold ≤ s
      · rw [if_pos hsim]
        exact Or.inl (attachAt_map_pid reg i m)
      · rw [if_neg hsim]
        exact Or.inr happ

/-- C1: after a run over distinct mentions starting from the empty
registry, every mention is attached to exactly one canonical Person (at
most one and not orphaned), and no resolution step ever merges two
existing Persons: each step preserves every existing person id, adding at
most one fresh Person. -/
theorem registry_exactly_one (ms : List Mention) (hnd : ms.Nodup)
    (m : Mention) (hm : m ∈ ms) :
    occCount m (runResolve [] ms) = 1 ∧
      ∀ (reg : List Person) (m0 : Mention),
        (resolveStep reg m0).map Person.pid = reg.map Person.pid ∨
          (resolveStep reg m0).map Person.pid =
            reg.map Person.pid ++ [reg.length] := by
  constructor
  · rw [occCount_runResolve, occCount_nil, Nat.zero_add]
    exact List.count_eq_one_of_mem hnd hm
  · exact resolveStep_pids

/-- Witness for C1 on two concrete distinct mentions. -/
theorem registry_exactly_one_witness :
    occCount mentionA (runResolve [] [mentionA, mentionB]) = 1 ∧
      ∀ (reg : List Person) (m0 : Mention),
        (resolveStep reg m0).map Person.pid = reg.map Person.pid ∨
          (resolveStep reg m0).map Person.pid =
            reg.map Person.pid ++ [reg.length] :=
  registry_exactly_one [mentionA, mentionB] (by decide) mentionA
    (List.Mem.head _)

theorem runReg_append (as bs : List Text) (reg : List Person) :
    runReg (as ++ bs) reg = runReg bs (runReg as reg) := by
  induction as generalizing reg with
  | nil => rfl
  | cons d ds ih =>
      simp only [List.cons_append, runReg]
      cases hn : normalize d with
      | error e => exact ih reg
      | ok r => exact ih _

theorem runOut_append (as bs : List Text) (reg : List Person) :
    runOut (as ++ bs) reg = runOut as reg ++ runOut bs (runReg as reg) := by
  induction as generalizing reg with
  | nil => rfl
  | cons d ds ih =>
      simp only [List.cons_append, runOut, runReg]
      cases hn : normalize d with
      | error e => exact congrArg _ (ih reg)
      | ok r => exact congrArg _ (ih _)

theorem normalize_error_iff (raw : Text) :
    (∃ e, normalize raw = .error e) ↔
      (tokens raw = [] ∨ MAX_TEXT_LENGTH < raw.length) := by
  unfold normalize
  split_ifs with h1 h2
  · simp [h1]
  · simp [h2]
  · constructor
    · rintro ⟨e, he⟩; cases he
    · rintro (h | h)
      · exact absurd h h1
      · exact absurd h h2

/-- C5 (amended): `normalize` raises ValidationError exactly when the raw
text is blank (empty or whitespace-only) or exceeds the configured maximum
length; and such a failure aborts that document only: the registry and the
outcome of every other document of the run are exactly as if the failing
document were absent, with one failure outcome recorded for it. -/
theorem normalize_failure_isolated (raw : Text) (pre post : List Text)
    (reg : List Person) :
    ((∃ e, normalize raw = .error e) ↔
        (tokens raw = [] ∨ MAX_TEXT_LENGTH < raw.length)) ∧
      ((∃ e, normalize raw = .error e) →
        runReg (pre ++ raw :: post) reg = runReg (pre ++ post) reg ∧
          ∃ e, runOut (pre ++ raw :: post) reg =
              runOut pre reg ++
                .failed e :: runOut post (runReg pre reg) ∧
            runOut (pre ++ post) reg =
              runOut pre reg ++ runOut post (runReg pre reg)) := by
  refine ⟨normalize_error_iff raw, ?_⟩
  rintro ⟨e, he⟩
  have hreg : ∀ r, runReg (raw :: post) r = runReg post r := by
    intro r
    simp only [runReg, he]
  have hout : ∀ r, runOut (raw :: post) r = .failed e :: runOut post r := by
    intro r
    simp only [runOut, he]
  constructor
  · rw [runReg_append, hreg, ← runReg_append]
  · refine ⟨e, ?_, runOut_append pre post reg⟩
    rw [runOut_append, hout]

/-- C5 counterexample: whitespace-only text is neither empty nor over the
maximum length, yet `normalize` raises ValidationError. -/
theorem normalize_blank_raises :
    (∃ e, normalize [' '] = .error e) ∧ ([' '] : Text) ≠ [] ∧
      ([' '] : Text).length ≤ MAX_TEXT_LENGTH :=
  ⟨⟨.emptyText, rfl⟩, by decide, by decide⟩

/-- Witness for C5 (amended) at the whitespace-only document. -/
theorem normalize_failure_isolated_witness :
    (tokens ([' '] : Text) = [] ∨
        MAX_TEXT_LENGTH < ([' '] : Text).length) ∧
      runReg ([normDemo] ++ [' '] :: []) [] = runReg ([normDemo] ++ []) [] :=
  ⟨(normalize_failure_isolated [' '] [normDemo] [] []).1.mp
      ⟨.emptyText, rfl⟩,
    ((normalize_failure_isolated [' '] [normDemo] [] []).2
      ⟨.emptyText, rfl⟩).1⟩

theorem buildCache_keys (n : Nat) :
    ∀ k ∈ (buildCache n).map Prod.fst, ∃ m, m < n ∧ k = ceKey m := by
  induction n with
  | zero => simp [buildCache]
  | succ n ih =>
      intro k hk
      simp only [buildCache, cachePut, List.map_cons, List.mem_cons] at hk
      rcases hk with rfl | hk2
      · exact ⟨n, Nat.lt_succ_self n, rfl⟩
      · have hmem : k ∈ (buildCache n).map Prod.fst := by
          rcases List.mem_map.1 hk2 with ⟨e, he, rfl⟩
          exact List.mem_map_of_mem _ (List.mem_of_mem_filter he)
        obtain ⟨m, hm, rfl⟩ := ih _ hmem
        exact ⟨m, Nat.lt_succ_of_lt hm, rfl⟩

theorem ceKey_inj {a b : Nat} (h : ceKey a = ceKey b) : a = b := by
  have hlen := congrArg (fun k => k.2.length) h
  simpa [ceKey] using hlen

theorem cacheSize_buildCache (n : Nat) : cacheSize (buildCache n) = n := by
  induction n with
  | zero => rfl
  | succ n ih =>
      have hfil : (buildCache n).filter (fun e => decide (e.1 ≠ ceKey n)) =
          buildCache n := by
        apply List.filter_eq_self.2
        intro e he
        simp only [decide_eq_true_eq]
        intro heq
        obtain ⟨m, hm, hk⟩ :=
          buildCache_keys n e.1 (List.mem_map_of_mem _ he)
        exact absurd (ceKey_inj (hk.symm.trans heq)) (Nat.ne_of_lt hm)
      simp only [buildCache, cachePut, cacheSize, List.length_cons, hfil]
      simp only [cacheSize] at ih
      omega

/-- C6 counterexample: a run of 1001 put operations under distinct keys
leaves 1001 entries in the processing cache — the configured maximum of
1000 is exceeded and no entry has been evicted. -/
theorem cache_exceeds_bound :
    maxCacheSize < cacheSize (buildCache 1001) := by
  rw [cacheSize_buildCache]
  decide

/-- C6 (amended): the processing cache is bounded by wholesale per-block
clearing, not per-operation least-recently-used eviction: a put never
evicts any other entry, and after each processing block `_clear_caches`
empties the whole cache, so at block boundaries the entry count is under
the configured maximum. -/
theorem cache_cleared_per_block (items : List Text) (c : Cache)
    (k k' : CacheKey) (v : StageValue) (h : k' ≠ k) :
    processBlock items c = [] ∧
      cacheSize (processBlock items c) ≤ maxCacheSize ∧
      cacheGet (cachePut c k v) k' = cacheGet c k' :=
  ⟨rfl, Nat.zero_le _, cacheGet_cachePut_ne c k k' v h⟩

/-- Witness for C6 (amended) at concrete arguments. -/
theorem cache_cleared_per_block_witness :
    processBlock [] [] = [] ∧
      cacheSize (processBlock [] []) ≤ maxCacheSize ∧
      cacheGet (cachePut [] (Stage.norm, []) ceValue) (Stage.seg, []) =
        cacheGet [] (Stage.seg, []) :=
  cache_cleared_per_block [] [] (Stage.norm, []) (Stage.seg, []) ceValue
    (by decide)

theorem round3_bounds (q : ℚ) (h0 : 0 ≤ q) (h1 : q ≤ 1) :
    0 ≤ round3 q ∧ round3 q ≤ 1 := by
  have hlow : (0 : ℤ) ≤ round (q * 1000) := by
    rw [round_eq]
    exact Int.le_floor.2 (by push_cast; linarith)
  have hhigh : round (q * 1000) ≤ 1000 := by
    have hle := round_le_add_half (q * 1000)
    have hlt : ((round (q * 1000) : ℤ) : ℚ) < 1001 := by linarith
    exact Int.lt_add_one_iff.1 (by exact_mod_cast hlt)
  constructor
  · exact div_nonneg (by exact_mod_cast hlow) (by norm_num)
  · unfold round3
    rw [div_le_one (by norm_num : (0 : ℚ) < 1000)]
    exact_mod_cast hhigh

/-- C10 (amended): _analyze_segment_quality succeeds exactly on non-empty
input (its unguarded division raises exactly on the empty segment list,
which the Segmenter can legitimately produce), and on non-empty input it
returns the average quality equal to the sum of the scores divided by the
number of segments, rounded to three decimals, together with the bucket
counts; the rounded average lies in [0,1] whenever every present score
does. -/
theorem analyze_segment_quality_spec (segs : List SegmentDict) :
    ((analyzeSegmentQuality segs).isSome ↔ segs ≠ []) ∧
      (segs ≠ [] →
        ∃ r, analyzeSegmentQuality segs = some r ∧
          r.avg_quality =
            round3 ((segs.map (fun s => s.quality_score.getD 0)).sum /
              (segs.length : ℚ)) ∧
          r.quality_distribution =
            qualityRanges (segs.map (fun s => s.quality_score.getD 0)) ∧
          r.total_segments = segs.length ∧
          ((∀ s ∈ segs, ∀ q, s.quality_score = some q → 0 ≤ q ∧ q ≤ 1) →
            0 ≤ r.avg_quality ∧ r.avg_quality ≤ 1)) := by
  have hlen : (segs.map (fun s => s.quality_score.getD 0)).length =
      segs.length := List.length_map _ _
  constructor
  · by_cases hempty : segs = []
    · subst hempty; simp [analyzeSegmentQuality]
    · simp [analyzeSegmentQuality, hlen, List.length_eq_zero, hempty]
  · intro hne
    have hcond : ¬((segs.map (fun s => s.quality_score.getD 0)).length = 0) := by
      rw [hlen]
      simpa [List.length_eq_zero] using hne
    have hr : analyzeSegmentQuality segs =
        some ⟨round3 ((segs.map (fun s => s.quality_score.getD 0)).sum /
            (segs.length : ℚ)),
          qualityRanges (segs.map (fun s => s.quality_score.getD 0)),
          segs.length⟩ := by
      unfold analyzeSegmentQuality
      rw [if_neg hcond, hlen]
    refine ⟨_, hr, rfl, rfl, rfl, ?_⟩
    intro hsc
    have hin : ∀ x ∈ segs.map (fun s => s.quality_score.getD 0),
        0 ≤ x ∧ x ≤ 1 := by
      intro x hx
      rcases List.mem_map.1 hx with ⟨s, hs, rfl⟩
      cases hq : s.quality_score with
      | none => simp [hq]
      | some q =>
          have := hsc s hs q hq
          simpa [hq] using this
    have hsum0 : 0 ≤ (segs.map (fun s => s.quality_score.getD 0)).sum :=
      List.sum_nonneg (fun x hx => (hin x hx).1)
    have hsum1 : (segs.map (fun s => s.quality_score.getD 0)).sum ≤
        (segs.length : ℚ) := by
      have hb := List.sum_le_card_nsmul
        (segs.map (fun s => s.quality_score.getD 0)) 1
        (fun x hx => (hin x hx).2)
      rw [hlen] at hb
      simpa [nsmul_eq_mul] using hb
    have hlpos : 0 < (segs.length : ℚ) := by
      have hp : 0 < segs.length := List.length_pos.2 hne
      exact_mod_cast hp
    exact round3_bounds _
      (div_nonneg hsum0 hlpos.le) ((div_le_one hlpos).2 hsum1)

/-- Witness for C10 (amended) at the concrete one-segment list. -/
theorem analyze_segment_quality_spec_witness :
    ((analyzeSegmentQuality segsDemo).isSome ↔ segsDemo ≠ []) ∧
      ∃ r, analyzeSegmentQuality segsDemo = some r ∧
        r.avg_quality =
          round3 ((segsDemo.map (fun s => s.quality_score.getD 0)).sum /
            (segsDemo.length : ℚ)) :=
  ⟨(analyze_segment_quality_spec segsDemo).1, by
    obtain ⟨r, hr, ha, _⟩ :=
      (analyze_segment_quality_spec segsDemo).2 (by simp [segsDemo])
    exact ⟨r, hr, ha⟩⟩

/-- C10 counterexample: on three segments with scores 0, 0 and 1/2 the
returned average is the rounded 167/1000, not the exact quotient 1/6. -/
theorem analyze_rounded_avg_counterexample :
    ∃ r, analyzeSegmentQuality segsCE = some r ∧
      r.avg_quality ≠
        (segsCE.map (fun s => s.quality_score.getD 0)).sum /
          (segsCE.length : ℚ) := by
  have hne0 : ¬((segsCE.map (fun s => s.quality_score.getD 0)).length = 0) := by
    simp [segsCE]
  unfold analyzeSegmentQuality
  rw [if_neg hne0]
  refine ⟨_, rfl, ?_⟩
  show round3 ((segsCE.map (fun s => s.quality_score.getD 0)).sum /
      (((segsCE.map (fun s => s.quality_score.getD 0)).length : ℕ) : ℚ)) ≠
    (segsCE.map (fun s => s.quality_score.getD 0)).sum / (segsCE.length : ℚ)
  have hsum : (segsCE.map (fun s => s.quality_score.getD 0)).sum = 1/2 := by
    norm_num [segsCE]
  have hlen2 : (((segsCE.map (fun s => s.quality_score.getD 0)).length : ℕ) : ℚ) =
      3 := by norm_num [segsCE]
  have hlen3 : ((segsCE.length : ℕ) : ℚ) = 3 := by norm_num [segsCE]
  rw [hsum, hlen2, hlen3]
  have hdiv : (1 : ℚ)/2 / 3 = 1/6 := by norm_num
  rw [hdiv]
  have h167 : round ((1 : ℚ)/6 * 1000) = 167 := by
    rw [round_eq]
    have he : (1 : ℚ)/6 * 1000 + 1/2 = 1003/6 := by norm_num
    rw [he]
    exact Int.floor_eq_iff.2 ⟨by norm_num, by norm_num⟩
  unfold round3
  rw [h167]
  norm_num

end Garmea
